import Mathlib

/-!
Verification development for the CIS benchmark PDF-to-JSON converter
(src/cis_parser.py). The program is a linear pipeline over one in-memory
text blob: locate the table of contents, map control IDs to titles, slice
the appendix region into per-control windows using the next control ID as
a delimiter, and extract labelled sections with fixed regular expressions.

The embedding works over `List Char`. Each regular expression the source
uses is specialised to an executable Lean function with Python `re`
semantics for that concrete pattern (leftmost match, greedy versus lazy
quantifiers, lookahead alternation order, DOTALL and MULTILINE flags as
used at each call site). Where a greedy or lazy quantifier is
deterministic for the concrete pattern (because the character classes on
both sides are disjoint, or because an end-of-text alternative makes the
lookahead total), the function implements that deterministic reading; each
such spot is justified in a comment.
-/

set_option maxRecDepth 8192

namespace CisBench

/-- Convert a string literal to the character-list representation used
throughout the development. -/
def cl (x : String) : List Char := x.data

/-- Python regex whitespace class (ASCII part, which is all the source
documents contain): space, tab, newline, carriage return, vertical tab,
form feed. -/
def isSpace (c : Char) : Bool :=
  c == ' ' || c == '\t' || c == '\n' || c == '\r' || c == '\x0b' || c == '\x0c'

/-- Python regex digit class (ASCII part). -/
def isDigit (c : Char) : Bool :=
  c == '0' || c == '1' || c == '2' || c == '3' || c == '4' ||
  c == '5' || c == '6' || c == '7' || c == '8' || c == '9'

/-- Python str.strip: remove leading and trailing whitespace. -/
def trim (l : List Char) : List Char :=
  ((l.dropWhile isSpace).reverse.dropWhile isSpace).reverse

/-- Does some suffix of the list satisfy the predicate?  This models the
set of positions a regex scan can reach. -/
def anyPos (p : List Char → Bool) : List Char → Bool
  | [] => p []
  | c :: t => p (c :: t) || anyPos p t

/-- Does `lit` occur as a contiguous substring? -/
def containsSub (lit t : List Char) : Bool :=
  anyPos (fun sfx => lit.isPrefixOf sfx) t

/-- Split at the first occurrence of `lit`: `some (pre, post)` with
`t = pre ++ lit ++ post` and no occurrence of `lit` starting inside
`pre`.  Models leftmost matching of a literal. -/
def splitFirst (lit : List Char) : List Char → Option (List Char × List Char)
  | [] => if lit.isEmpty then some ([], []) else none
  | c :: t =>
    if lit.isPrefixOf (c :: t) then some ([], (c :: t).drop lit.length)
    else (splitFirst lit t).map (fun pr => (c :: pr.1, pr.2))

/-- Lazy capture `(.*?)(?=X)` with DOTALL: the shortest prefix whose
remaining suffix satisfies the lookahead `stop`; `none` when no position
satisfies it. -/
def lazyCapture (stop : List Char → Bool) : List Char → Option (List Char)
  | [] => if stop [] then some [] else none
  | c :: t => if stop (c :: t) then some [] else (lazyCapture stop t).map (c :: ·)

/-- Everything before the first occurrence of `delim`, or the whole list
when `delim` does not occur. -/
def takeUntilSub (delim t : List Char) : List Char :=
  match splitFirst delim t with
  | some pr => pr.1
  | none => t

/-- Lookahead `lit` matched directly at the position. -/
def litAt (lit : List Char) (sfx : List Char) : Bool := lit.isPrefixOf sfx

/-- Lookahead for a newline, optional whitespace, then `lit`
(the shape of the first alternative in each section terminator, and of the
Appendix anchor lookahead in the TOC regex).  Since every `lit` used
starts with a letter, the greedy-with-backtracking whitespace star is
equivalent to skipping the maximal whitespace run. -/
def nlWs (lit : List Char) (sfx : List Char) : Bool :=
  match sfx with
  | c :: r => c == '\n' && lit.isPrefixOf (r.dropWhile isSpace)
  | [] => false

/-- Python `$` without MULTILINE: matches at end of text, or just before a
newline that ends the text. -/
def dollarStop : List Char → Bool
  | [] => true
  | ['\n'] => true
  | _ => false

/-- Lookahead `\Z`: end of text only. -/
def endStop (sfx : List Char) : Bool := sfx.isEmpty


/-! ## Table-of-contents parsing (parse_table_of_contents, lines 29-48)

The anchor regex is
`re.search(r"Table of Contents\s*(.*?)(?=\n\s*Appendix)", text, re.DOTALL)`.
Leftmost semantics: because the lookahead positions do not depend on the
match start, the pattern succeeds iff it succeeds at the first occurrence
of the literal.  After the literal, the greedy whitespace star is tried
longest first; for its maximal extent the lazy group stops at the first
lookahead position at or beyond it.  When every lookahead position lies
strictly inside the whitespace run, backtracking shrinks the star until
the group (still lazy, hence empty) sits exactly at the last such
position, so the captured group is empty. -/

/-- Lookahead of the TOC regex, a newline then optional whitespace then
the Appendix literal. -/
def nlAppendix (sfx : List Char) : Bool := nlWs (cl "Appendix") sfx

/-- Captured group of the TOC anchor regex: the text between the first
Table of Contents anchor (plus following whitespace) and the next
newline-anchored Appendix literal; `none` when the regex does not match. -/
def tocRegion (text : List Char) : Option (List Char) :=
  match splitFirst (cl "Table of Contents") text with
  | none => none
  | some pr =>
    let post := pr.2
    match lazyCapture nlAppendix (post.dropWhile isSpace) with
    | some g => some g
    | none => if anyPos nlAppendix post then some [] else none

/-- Greedy parse of `(\.\d+)` groups, at most `k` of them: each step
consumes a dot and a maximal nonempty digit run.  No backtracking is
needed for the source pattern `\d+(\.\d+){1,3}\s+`: every digit run is
followed by a dot, a whitespace character, or a failure, and shrinking a
maximal digit run or dropping a group only exposes a digit or a dot where
whitespace is required, which can never succeed. -/
def parseDotComps : Nat → List Char → List Char × List Char
  | 0, t => ([], t)
  | k + 1, t =>
    match t with
    | [] => ([], [])
    | c :: t2 =>
      if c = '.' then
        let ds := t2.takeWhile isDigit
        if ds.isEmpty then ([], c :: t2)
        else
          let pr := parseDotComps k (t2.dropWhile isDigit)
          ('.' :: ds ++ pr.1, pr.2)
      else ([], c :: t2)

/-- Match attempt of the TOC entry regex
`^\s*(?P<cisnum>\d+(\.\d+){1,3})\s+(?P<title>[\s\S]*?(?=\.))`
at one position that satisfies `^` (MULTILINE).  Returns the cisnum
group, the title group, the last character the match consumed (needed to
decide whether the resumption point is a line start), and the unconsumed
rest.  The leading whitespace star and the digit runs are deterministic
(whitespace, digits and the dot are pairwise disjoint classes), the
whitespace plus is maximal because a shorter one puts a whitespace
character at the title start without creating an earlier period, and the
lazy title stops at the first period. -/
def tocTryMatch (t : List Char) : Option (List Char × List Char × Char × List Char) :=
  let t1 := t.dropWhile isSpace
  let ds := t1.takeWhile isDigit
  if ds.isEmpty then none
  else
    let pr := parseDotComps 3 (t1.dropWhile isDigit)
    if pr.1.isEmpty then none
    else
      let sp := pr.2.takeWhile isSpace
      if sp.isEmpty then none
      else
        let body := pr.2.dropWhile isSpace
        match lazyCapture (fun sfx => sfx.headD ' ' == '.') body with
        | none => none
        | some title =>
          some (ds ++ pr.1, title, title.getLastD (sp.getLastD ' '),
                body.drop title.length)

/-- Scan loop of `pattern.finditer(toc_text)`: try the entry regex at
every position satisfying `^` (string start, or just after a newline),
and resume after the end of each match.  The fuel is the length of the
scanned text; every step consumes at least one character. -/
def tocScanFuel : Nat → Bool → List Char → List (List Char × List Char)
  | 0, _, _ => []
  | _ + 1, _, [] => []
  | n + 1, atStart, c :: t =>
    if atStart then
      match tocTryMatch (c :: t) with
      | some (cis, title, lastC, rest) =>
        (cis, title) :: tocScanFuel n (lastC == '\n') rest
      | none => tocScanFuel n (c == '\n') t
    else tocScanFuel n (c == '\n') t

/-- One table-of-contents entry: a control ID and a title. -/
structure Entry where
  id : List Char
  title : List Char
deriving DecidableEq, Repr

/-- Python `toc.setdefault(category, []).append(entry)` on an insertion
ordered dictionary modelled as an association list: append the entry to
the existing key, or append a new singleton key at the end. -/
def setdefaultAppend : List (List Char × List Entry) → List Char → Entry →
    List (List Char × List Entry)
  | [], k, e => [(k, [e])]
  | (k2, l) :: rest, k, e =>
    if k2 = k then (k2, l ++ [e]) :: rest
    else (k2, l) :: setdefaultAppend rest k e

/-- Python `control_id.split(".")[0]`: the substring before the first
dot. -/
def categoryOf (id : List Char) : List Char := id.takeWhile (fun c => c != '.')

/-- Model of `parse_table_of_contents`: extract the TOC region, scan it
for entry matches, and group the entries by category in first-seen
order. -/
def parseTableOfContents (text : List Char) : List (List Char × List Entry) :=
  match tocRegion text with
  | none => []
  | some region =>
    (tocScanFuel region.length true region).foldl
      (fun toc pr =>
        let cid := trim pr.1
        setdefaultAppend toc (categoryOf cid) ⟨cid, trim pr.2⟩)
      []


/-! ## Section patterns (DEFAULT_SECTIONS, lines 12-21)

Each value is `LABEL:\s*(.*?)(?=ALT1|ALT2|...|$)` searched with DOTALL.
Alternation binds weakest inside the lookahead, so the `\n\s*` prefix
written in the source applies only to the first alternative; the other
label alternatives match at any position, and `$` matches at end of text
or before a final trailing newline.  Because `$` is always an
alternative, the lookahead is satisfiable at every suffix end, so the
search succeeds exactly at the first occurrence of the label, the greedy
whitespace star after the label never backtracks, and the lazy group
stops at the first position where some alternative matches. -/

/-- Terminator lookahead of the profile pattern. -/
def stopProfile (sfx : List Char) : Bool :=
  nlWs (cl "Description:") sfx || litAt (cl "Rationale:") sfx ||
  litAt (cl "Impact:") sfx || litAt (cl "Audit:") sfx || dollarStop sfx

/-- Terminator lookahead of the description pattern. -/
def stopDescription (sfx : List Char) : Bool :=
  nlWs (cl "Rationale:") sfx || litAt (cl "Impact:") sfx ||
  litAt (cl "Audit:") sfx || dollarStop sfx

/-- Terminator lookahead of the rationale pattern. -/
def stopRationale (sfx : List Char) : Bool :=
  nlWs (cl "Impact:") sfx || litAt (cl "Audit:") sfx || dollarStop sfx

/-- Terminator lookahead of the impact pattern. -/
def stopImpact (sfx : List Char) : Bool :=
  nlWs (cl "Audit:") sfx || litAt (cl "Remediation:") sfx || dollarStop sfx

/-- Terminator lookahead of the audit pattern. -/
def stopAudit (sfx : List Char) : Bool :=
  nlWs (cl "Remediation:") sfx || dollarStop sfx

/-- Terminator lookahead of the remediation pattern. -/
def stopRemediation (sfx : List Char) : Bool :=
  nlWs (cl "Default Value:") sfx || dollarStop sfx

/-- Terminator lookahead of the default-value pattern. -/
def stopDefaultValue (sfx : List Char) : Bool :=
  nlWs (cl "References:") sfx || dollarStop sfx

/-- Terminator lookahead of the references pattern. -/
def stopReferences (sfx : List Char) : Bool :=
  nlWs (cl "CIS Controls:") sfx || dollarStop sfx

/-- The eight named section patterns in source order: output key, label
literal, terminator lookahead. -/
def DEFAULT_SECTIONS : List (String × List Char × (List Char → Bool)) :=
  [("profile", cl "Profile Applicability:", stopProfile),
   ("description", cl "Description:", stopDescription),
   ("rationale", cl "Rationale:", stopRationale),
   ("impact", cl "Impact:", stopImpact),
   ("audit", cl "Audit:", stopAudit),
   ("remediation", cl "Remediation:", stopRemediation),
   ("default_value", cl "Default Value:", stopDefaultValue),
   ("references", cl "References:", stopReferences)]

/-- Model of `re.search(LABEL + ws-star + lazy group + lookahead, t,
DOTALL)`: the captured group at the first label occurrence, untrimmed. -/
def reSearchSection (lbl : List Char) (stop : List Char → Bool)
    (t : List Char) : Option (List Char) :=
  match splitFirst lbl t with
  | none => none
  | some pr => lazyCapture stop (pr.2.dropWhile isSpace)

/-- Apply the section patterns in order over the window text, keeping
only the matches, values stripped (the loop body of extract_cis_details,
lines 66-71). -/
def applySectionsOver (w : List Char) :
    List (String × List Char × (List Char → Bool)) → List (String × List Char)
  | [] => []
  | (k, lbl, stop) :: rest =>
    match reSearchSection lbl stop w with
    | some v => (k, trim v) :: applySectionsOver w rest
    | none => applySectionsOver w rest

/-- All eight sections extracted from a window. -/
def applySections (w : List Char) : List (String × List Char) :=
  applySectionsOver w DEFAULT_SECTIONS

/-! ## Control windows and detail extraction (extract_cis_details, lines 50-71) -/

/-- Group 1 of `re.search(r"Appendix\s*(.*)", full_text, re.DOTALL)`: the
suffix after the first Appendix literal with the following whitespace run
consumed by the greedy star; `none` when the literal is absent. -/
def appendixRegion (text : List Char) : Option (List Char) :=
  match splitFirst (cl "Appendix") text with
  | none => none
  | some pr => some (pr.2.dropWhile isSpace)

/-- Window terminator: `(?=\n NEXT|\Z)` when a next ID exists, `(?=\Z)`
otherwise.  `re.escape` makes both IDs literal text, which the model
reflects by treating them as plain character lists. -/
def windowStop (nextId : Option (List Char)) (sfx : List Char) : Bool :=
  match nextId with
  | some nid => litAt ('\n' :: nid) sfx || endStop sfx
  | none => endStop sfx

/-- Group 1 of the window regex `(CIS.*?)(?=\n NEXT|\Z)` over the
appendix region: from the first occurrence of the control ID, lazily up
to the terminator.  Because `\Z` is always an alternative, the search
succeeds iff the control ID occurs. -/
def windowOf (cisId : List Char) (nextId : Option (List Char))
    (appendix : List Char) : Option (List Char) :=
  match splitFirst cisId appendix with
  | none => none
  | some pr =>
    match lazyCapture (windowStop nextId) pr.2 with
    | none => none
    | some cap => some (cisId ++ cap)

/-- Model of `extract_cis_details` with the DEFAULT_SECTIONS patterns. -/
def extractCisDetails (cisId : List Char) (fullText : List Char)
    (nextId : Option (List Char)) : List (String × List Char) :=
  match appendixRegion fullText with
  | none => []
  | some appendix =>
    match windowOf cisId nextId appendix with
    | none => []
    | some w => applySections w


/-! ## Pipeline driver (parse_cis_benchmark, lines 79-106)

The driver is modelled from the point where the extracted text exists.
`extract_text_from_pdf` and `save_json` are I/O shims around it; a
`none` result models the early return that writes no output file. -/

/-- Association-list lookup, the model of Python dict indexing. -/
def alookup {κ α : Type} [DecidableEq κ] : List (κ × α) → κ → Option α
  | [], _ => none
  | (k, v) :: t, q => if k = q then some v else alookup t q

/-- Python dict single-key overlay: update the value in place when the
key exists, otherwise append the pair. -/
def dictInsert {α : Type} : List (String × α) → String → α → List (String × α)
  | [], k, x => [(k, x)]
  | (k2, y) :: rest, k, x =>
    if k2 = k then (k2, x) :: rest else (k2, y) :: dictInsert rest k x

/-- Python `{**base, **overlay}`. -/
def dictMerge {α : Type} (base overlay : List (String × α)) : List (String × α) :=
  overlay.foldl (fun acc pr => dictInsert acc pr.1 pr.2) base

/-- The two fixed pairs of a ControlEntry dict. -/
def controlPairs (e : Entry) : List (String × List Char) :=
  [("id", e.id), ("title", e.title)]

/-- Next-control-ID computation of the driver (lines 92-99): the next
entry in the same category when one exists; otherwise, when a next
category exists in insertion order, its first entry via dict lookup of
that key, or nothing when that category is empty; otherwise nothing. -/
def nextControlId (toc : List (List Char × List Entry)) (si i : Nat) :
    Option (List Char) :=
  match toc[si]? with
  | none => none
  | some pr =>
    match pr.2[i + 1]? with
    | some c => some c.id
    | none =>
      match toc[si + 1]? with
      | none => none
      | some pr2 =>
        match alookup toc pr2.1 with
        | none => none
        | some l2 =>
          match l2 with
          | [] => none
          | c :: _ => some c.id

/-- The expanded record list: for each category in insertion order and
each control in order, the entry dict merged with its extracted
details. -/
def expandRecords (toc : List (List Char × List Entry)) (text : List Char) :
    List (List (String × List Char)) :=
  toc.enum.flatMap (fun p =>
    p.2.2.enum.map (fun q =>
      dictMerge (controlPairs q.2)
        (extractCisDetails q.2.id text (nextControlId toc p.1 q.1))))

/-- Pure core of `parse_cis_benchmark` on the extracted document text:
`none` models the early return with no output file, `some records` the
JSON array written. -/
def pipelineRecords (text : List Char) :
    Option (List (List (String × List Char))) :=
  match parseTableOfContents text with
  | [] => none
  | toc => some (expandRecords toc text)

/-! ## Specification-side definitions

These are written from the wording of the specification (not from the
source) and are compared against the source-derived functions above. -/

/-- Specification-side next-ID rule, written from the stated rule: the
following control in the same category when one exists; else the first
control of the next category in insertion order when a next category
exists, with an empty next category yielding nothing; else nothing. -/
def nextIdSpec (toc : List (List Char × List Entry)) (si i : Nat) :
    Option (List Char) :=
  match toc[si]? with
  | none => none
  | some pr =>
    match pr.2[i + 1]? with
    | some c => some c.id
    | none =>
      match toc[si + 1]? with
      | none => none
      | some pr2 =>
        match pr2.2 with
        | [] => none
        | c :: _ => some c.id

/-- Specification-side window rule, written from the claim wording: the
window runs from the first literal occurrence of the control ID up to
(but not including) the first literal occurrence of the next control ID,
or to the end of the appendix region when there is no next ID. -/
def windowClaim (cisId : List Char) (nextId : Option (List Char))
    (appendix : List Char) : Option (List Char) :=
  match splitFirst cisId appendix with
  | none => none
  | some pr =>
    match nextId with
    | some nid => some (cisId ++ takeUntilSub nid pr.2)
    | none => some (cisId ++ pr.2)

/-- The eight section label literals. -/
def sectionLabels : List (List Char) := DEFAULT_SECTIONS.map (fun tr => tr.2.1)

/-- Specification-side section terminator, written from the claim
wording: the capture stops at the next known label (any of the eight) or
at end of text. -/
def stopAnyLabel (sfx : List Char) : Bool :=
  sectionLabels.any (fun lbl => lbl.isPrefixOf sfx) || dollarStop sfx

/-- Specification-side section value, written from the claim wording:
the text after the section label (and following whitespace), captured
non-greedily up to the next known label or end of text, trimmed. -/
def sectionValueClaim (lbl : List Char) (w : List Char) : Option (List Char) :=
  match splitFirst lbl w with
  | none => none
  | some pr => (lazyCapture stopAnyLabel (pr.2.dropWhile isSpace)).map trim

/-! Concrete documents used in the worked examples and counterexamples. -/

/-- The worked TOC example document from the specification. -/
def c6ex : List Char :=
  cl "Table of Contents\n1 Section\n1.1 Control One.......12\n1.2 Control Two.......13\nAppendix"

/-- A document whose second TOC line is well shaped but is swallowed by
the previous title capture (the first line has no period). -/
def c6cx : List Char := cl "Table of Contents\n1.1 abc\n1.2 def.12\nAppendix"

/-- The worked detail-extraction example document from the
specification, with the elisions instantiated by plain text. -/
def c5ex : List Char :=
  cl "Appendix\nintro\n1.1 Title A\nintro text\nProfile Applicability:\nLevel 1\nDescription:\nDo X\nRationale:\nBecause Y\n1.2 Title B"

/-- A document whose control window has a remediation section followed
by a references section but no default-value section. -/
def c3ex : List Char := cl "Appendix\n2.1 T\nRemediation:\nfix\nReferences:\nurl"

/-- The control window isolated from `c3ex` for control 2.1. -/
def c3win : List Char := cl "2.1 T\nRemediation:\nfix\nReferences:\nurl"

/-- The structural invariant preserved by the TOC grouping fold: every
category list is nonempty, and every entry in a category has that
category as the part of its ID before the first dot. -/
def TocInv (L : List (List Char × List Entry)) : Prop :=
  ∀ pr ∈ L, pr.2 ≠ [] ∧ ∀ e ∈ pr.2, categoryOf e.id = pr.1

/-- The id and title fields of an output record. -/
def entryProj (r : List (String × List Char)) :
    Option (List Char) × Option (List Char) :=
  (alookup r "id", alookup r "title")

/-! Cross-checks of the model against the behaviour of the concrete
patterns in CPython 3 `re` on the same inputs. -/

-- A few sanity checks of the primitives on concrete data.
example : splitFirst (cl "bc") (cl "abcbc") = some (cl "a", cl "bc") := by decide
example : lazyCapture (litAt (cl "cd")) (cl "abcde") = some (cl "ab") := by decide
example : trim (cl "  a b \n") = cl "a b" := by decide
example : containsSub (cl "pp") (cl "Appendix") = true := by decide

-- Sanity: the worked TOC example from the specification.
example :
    parseTableOfContents
      (cl "Table of Contents\n1 Section\n1.1 Control One.......12\n1.2 Control Two.......13\nAppendix")
      = [(cl "1", [⟨cl "1.1", cl "Control One"⟩, ⟨cl "1.2", cl "Control Two"⟩])] := by
  decide

-- Sanity: the worked detail-extraction example from the specification.
example :
    extractCisDetails (cl "1.1")
      (cl "Appendix\nintro\n1.1 Title A\nintro text\nProfile Applicability:\nLevel 1\nDescription:\nDo X\nRationale:\nBecause Y\n1.2 Title B")
      (some (cl "1.2"))
      = [("profile", cl "Level 1"), ("description", cl "Do X"),
         ("rationale", cl "Because Y")] := by
  decide

-- Empty group when the anchors are separated by whitespace only.
example : tocRegion (cl "Table of Contents\n  Appendix") = some [] := by decide
-- A bare label alternative terminates the capture mid-line.
example :
    reSearchSection (cl "Profile Applicability:") stopProfile
      (cl "Profile Applicability: aaa Rationale: bbb") = some (cl "aaa ") := by decide
-- The greedy whitespace star can consume the newline the first
-- terminator alternative needs, letting the capture run past it.
example :
    reSearchSection (cl "Audit:") stopAudit (cl "Audit:\n\nRemediation: x")
      = some (cl "Remediation: x") := by decide
-- Dollar matches before a trailing final newline.
example :
    reSearchSection (cl "Audit:") stopAudit (cl "Audit: x\n") = some (cl "x") := by
  decide
-- The remediation terminator set does not include the references label.
example :
    reSearchSection (cl "Remediation:") stopRemediation
      (cl "Remediation: fix\nReferences: url") = some (cl "fix\nReferences: url") := by
  decide
-- A next ID not preceded by a newline is not a window delimiter.
example :
    windowOf (cl "1.1") (some (cl "1.2")) (cl "1.1 alpha 1.2 beta")
      = some (cl "1.1 alpha 1.2 beta") := by decide
-- A title capture crosses lines up to the first period anywhere.
example :
    tocScanFuel (cl "1.1 abc\n1.2 def.12").length true (cl "1.1 abc\n1.2 def.12")
      = [(cl "1.1", cl "abc\n1")] := by decide

/-! ## Lemma library: list scanning primitives -/

theorem takeWhile_append_all {p : Char → Bool} :
    ∀ {a b : List Char}, (∀ c ∈ a, p c = true) →
      (a ++ b).takeWhile p = a ++ b.takeWhile p := by
  intro a
  induction a with
  | nil => intro b _; simp
  | cons c a ih =>
    intro b h
    have hc : p c = true := h c (List.mem_cons_self c a)
    simp only [List.cons_append, List.takeWhile_cons, hc, if_true]
    rw [ih (fun d hd => h d (List.mem_cons_of_mem c hd))]

theorem dropWhile_append_all {p : Char → Bool} :
    ∀ {a b : List Char}, (∀ c ∈ a, p c = true) →
      (a ++ b).dropWhile p = b.dropWhile p := by
  intro a
  induction a with
  | nil => intro b _; simp
  | cons c a ih =>
    intro b h
    have hc : p c = true := h c (List.mem_cons_self c a)
    simp only [List.cons_append, List.dropWhile_cons, hc, if_true]
    exact ih (fun d hd => h d (List.mem_cons_of_mem c hd))

theorem takeWhile_cons_neg {p : Char → Bool} {c : Char} {b : List Char}
    (h : p c = false) : (c :: b).takeWhile p = [] := by
  simp [List.takeWhile_cons, h]

theorem dropWhile_cons_neg {p : Char → Bool} {c : Char} {b : List Char}
    (h : p c = false) : (c :: b).dropWhile p = c :: b := by
  simp [List.dropWhile_cons, h]

theorem dropWhile_isSuffix {p : Char → Bool} :
    ∀ l : List Char, l.dropWhile p <:+ l := by
  intro l
  induction l with
  | nil => exact List.suffix_refl _
  | cons c t ih =>
    by_cases hc : p c = true
    · simpa [List.dropWhile_cons, hc] using ih.trans (List.suffix_cons c t)
    · simp only [List.dropWhile_cons, hc, if_neg]
      simp [Bool.not_eq_true] at hc
      simp [hc]

theorem isPrefixOf_eq_true_iff {lit s : List Char} :
    lit.isPrefixOf s = true ↔ ∃ r, s = lit ++ r := by
  rw [List.isPrefixOf_iff_prefix]
  constructor
  · rintro ⟨r, hr⟩; exact ⟨r, hr.symm⟩
  · rintro ⟨r, hr⟩; exact ⟨r, hr.symm⟩

/-! Lemmas about `anyPos` and `containsSub`. -/

theorem anyPos_eq_true_iff {p : List Char → Bool} :
    ∀ {t : List Char}, anyPos p t = true ↔ ∃ sfx, sfx <:+ t ∧ p sfx = true := by
  intro t
  induction t with
  | nil =>
    simp only [anyPos]
    constructor
    · intro h; exact ⟨[], List.suffix_refl _, h⟩
    · rintro ⟨sfx, hs, hp⟩
      rwa [List.suffix_nil.mp hs] at hp
  | cons c t ih =>
    simp only [anyPos, Bool.or_eq_true]
    constructor
    · rintro (h | h)
      · exact ⟨c :: t, List.suffix_refl _, h⟩
      · obtain ⟨sfx, hs, hp⟩ := ih.mp h
        exact ⟨sfx, hs.trans (List.suffix_cons c t), hp⟩
    · rintro ⟨sfx, hs, hp⟩
      rcases List.suffix_cons_iff.mp hs with h | h
      · left; rwa [h] at hp
      · right; exact ih.mpr ⟨sfx, h, hp⟩

theorem containsSub_eq_true_iff {lit t : List Char} :
    containsSub lit t = true ↔ ∃ pre post, t = pre ++ lit ++ post := by
  unfold containsSub
  rw [anyPos_eq_true_iff]
  constructor
  · rintro ⟨sfx, ⟨pre, hpre⟩, hp⟩
    obtain ⟨post, hpost⟩ := isPrefixOf_eq_true_iff.mp hp
    exact ⟨pre, post, by rw [← hpre, hpost, List.append_assoc]⟩
  · rintro ⟨pre, post, h⟩
    refine ⟨lit ++ post, ⟨pre, by rw [h, List.append_assoc]⟩, ?_⟩
    exact isPrefixOf_eq_true_iff.mpr ⟨post, rfl⟩

theorem containsSub_of_suffix {lit s t : List Char}
    (hst : s <:+ t) (h : containsSub lit s = true) : containsSub lit t = true := by
  obtain ⟨pre0, hpre0⟩ := hst
  obtain ⟨pre, post, hs⟩ := containsSub_eq_true_iff.mp h
  exact containsSub_eq_true_iff.mpr ⟨pre0 ++ pre, post, by
    rw [← hpre0, hs]; simp [List.append_assoc]⟩

theorem anyPos_of_nil {p : List Char → Bool} (h : p [] = true) :
    ∀ t, anyPos p t = true := by
  intro t
  induction t with
  | nil => simpa [anyPos] using h
  | cons c t ih => simp [anyPos, ih]

/-! Lemmas about `splitFirst`, `lazyCapture` and `takeUntilSub`. -/

theorem splitFirst_eq_some {lit : List Char} :
    ∀ {t : List Char} {pr : List Char × List Char},
      splitFirst lit t = some pr → t = pr.1 ++ lit ++ pr.2 := by
  intro t
  induction t with
  | nil =>
    intro pr h
    unfold splitFirst at h
    cases he : lit.isEmpty with
    | true =>
      have hl : lit = [] := by
        cases lit with
        | nil => rfl
        | cons x xs => simp [List.isEmpty] at he
      rw [he] at h
      simp only [if_true] at h
      cases h
      simp [hl]
    | false =>
      rw [he] at h
      simp at h
  | cons c t ih =>
    intro pr h
    unfold splitFirst at h
    cases hp : lit.isPrefixOf (c :: t) with
    | true =>
      obtain ⟨r, hr⟩ := isPrefixOf_eq_true_iff.mp hp
      rw [hp] at h
      simp only [if_true] at h
      cases h
      simp only [List.nil_append]
      rw [hr, List.drop_left]
    | false =>
      rw [hp] at h
      simp only [Bool.false_eq_true, if_false] at h
      cases hsf : splitFirst lit t with
      | none => rw [hsf] at h; simp at h
      | some pr0 =>
        rw [hsf] at h
        have h2 : (c :: pr0.1, pr0.2) = pr := by
          cases pr0
          simpa using h
        cases h2
        simp only [List.cons_append]
        rw [← ih hsf]

theorem splitFirst_isSome (lit : List Char) :
    ∀ t : List Char, (splitFirst lit t).isSome = containsSub lit t := by
  intro t
  induction t with
  | nil =>
    unfold splitFirst containsSub anyPos
    cases he : lit.isEmpty with
    | true =>
      have hl : lit = [] := by
        cases lit with
        | nil => rfl
        | cons x xs => simp [List.isEmpty] at he
      simp [hl, List.isPrefixOf]
    | false =>
      have hl : ∃ x xs, lit = x :: xs := by
        cases lit with
        | nil => simp [List.isEmpty] at he
        | cons x xs => exact ⟨x, xs, rfl⟩
      obtain ⟨x, xs, hl⟩ := hl
      simp [he, hl, List.isPrefixOf]
  | cons c t ih =>
    unfold splitFirst containsSub anyPos
    cases hp : lit.isPrefixOf (c :: t) with
    | true => simp [hp]
    | false =>
      simp only [Bool.false_eq_true, if_false, Bool.false_or]
      unfold containsSub at ih
      cases hsf : splitFirst lit t with
      | none => rw [hsf] at ih; simp at ih; simp [← ih]
      | some pr0 => rw [hsf] at ih; simp at ih; simp [← ih]

theorem splitFirst_eq_none_iff {lit t : List Char} :
    splitFirst lit t = none ↔ containsSub lit t = false := by
  constructor
  · intro h
    have h2 := splitFirst_isSome lit t
    rw [h] at h2
    exact h2.symm
  · intro h
    have h2 := splitFirst_isSome lit t
    rw [h] at h2
    exact Option.not_isSome_iff_eq_none.mp (by simp [h2])

theorem lazyCapture_isSome_eq_anyPos (stop : List Char → Bool) :
    ∀ t : List Char, (lazyCapture stop t).isSome = anyPos stop t := by
  intro t
  induction t with
  | nil =>
    unfold lazyCapture anyPos
    cases h : stop [] <;> simp
  | cons c t ih =>
    unfold lazyCapture anyPos
    cases h : stop (c :: t) with
    | true => simp
    | false =>
      simp only [Bool.false_eq_true, if_false, Bool.false_or]
      cases hlc : lazyCapture stop t with
      | none => rw [hlc] at ih; simp at ih; simp [← ih]
      | some cap => rw [hlc] at ih; simp at ih; simp [← ih]

theorem takeUntilSub_nil {delim : List Char} : takeUntilSub delim [] = [] := by
  unfold takeUntilSub splitFirst
  by_cases he : delim.isEmpty <;> simp [he]

theorem takeUntilSub_cons_pos {delim : List Char} {c : Char} {t : List Char}
    (h : delim.isPrefixOf (c :: t) = true) : takeUntilSub delim (c :: t) = [] := by
  unfold takeUntilSub splitFirst
  simp [h]

theorem takeUntilSub_cons_neg {delim : List Char} {c : Char} {t : List Char}
    (h : delim.isPrefixOf (c :: t) = false) :
    takeUntilSub delim (c :: t) = c :: takeUntilSub delim t := by
  unfold takeUntilSub
  conv in splitFirst delim (c :: t) => unfold splitFirst
  simp only [h, Bool.false_eq_true, if_false]
  cases hsf : splitFirst delim t <;> simp [hsf]

theorem lazyCapture_delim (stop : List Char → Bool) (delim : List Char)
    (hstop : ∀ s, stop s = (delim.isPrefixOf s || s.isEmpty)) :
    ∀ t, lazyCapture stop t = some (takeUntilSub delim t) := by
  intro t
  induction t with
  | nil =>
    have h0 : stop [] = true := by rw [hstop]; simp [List.isEmpty]
    unfold lazyCapture
    rw [h0, takeUntilSub_nil]
    simp
  | cons c t ih =>
    by_cases hd : delim.isPrefixOf (c :: t) = true
    · have h1 : stop (c :: t) = true := by rw [hstop, hd]; simp
      unfold lazyCapture
      rw [h1, takeUntilSub_cons_pos hd]
      simp
    · simp only [Bool.not_eq_true] at hd
      have h1 : stop (c :: t) = false := by rw [hstop, hd]; simp [List.isEmpty]
      unfold lazyCapture
      rw [h1, takeUntilSub_cons_neg hd, ih]
      simp

theorem lazyCapture_endOnly (stop : List Char → Bool)
    (hstop : ∀ s, stop s = s.isEmpty) :
    ∀ t, lazyCapture stop t = some t := by
  intro t
  induction t with
  | nil =>
    have h0 : stop [] = true := by rw [hstop]; simp [List.isEmpty]
    unfold lazyCapture
    rw [h0]
    simp
  | cons c t ih =>
    have h1 : stop (c :: t) = false := by rw [hstop]; simp [List.isEmpty]
    unfold lazyCapture
    rw [h1, ih]
    simp

/-! Corollaries for the window and section matchers. -/

theorem windowOf_some_next {cisId nid appendix : List Char}
    {pr : List Char × List Char} (h : splitFirst cisId appendix = some pr) :
    windowOf cisId (some nid) appendix
      = some (cisId ++ takeUntilSub ('\n' :: nid) pr.2) := by
  have hl := lazyCapture_delim (windowStop (some nid))
    ('\n' :: nid) (fun s => rfl) pr.2
  unfold windowOf
  rw [h]
  simp only [hl]

theorem windowOf_none_next {cisId appendix : List Char}
    {pr : List Char × List Char} (h : splitFirst cisId appendix = some pr) :
    windowOf cisId none appendix = some (cisId ++ pr.2) := by
  have hl := lazyCapture_endOnly (windowStop none) (fun s => rfl) pr.2
  unfold windowOf
  rw [h]
  simp only [hl]

theorem windowOf_eq_none {cisId appendix : List Char}
    (h : containsSub cisId appendix = false) :
    ∀ nextId, windowOf cisId nextId appendix = none := by
  intro nextId
  unfold windowOf
  rw [splitFirst_eq_none_iff.mpr h]

theorem reSearchSection_isSome (lbl : List Char) {stop : List Char → Bool}
    (hstop : stop [] = true) (t : List Char) :
    (reSearchSection lbl stop t).isSome = containsSub lbl t := by
  unfold reSearchSection
  cases hsf : splitFirst lbl t with
  | none =>
    have h2 := splitFirst_isSome lbl t
    rw [hsf] at h2
    simp [← h2]
  | some pr =>
    have h2 := splitFirst_isSome lbl t
    rw [hsf] at h2
    simp only [← h2, Option.isSome_some]
    rw [lazyCapture_isSome_eq_anyPos]
    exact anyPos_of_nil hstop _

theorem reSearchSection_eq_none {lbl : List Char} {stop : List Char → Bool}
    (h : containsSub lbl t = false) : reSearchSection lbl stop t = none := by
  unfold reSearchSection
  rw [splitFirst_eq_none_iff.mpr h]

/-! Lemmas about the association-list operations. -/

theorem alookup_applySectionsOver_none {w : List Char} {k : String} :
    ∀ {L : List (String × List Char × (List Char → Bool))},
      (∀ lbl stop, (k, lbl, stop) ∈ L → reSearchSection lbl stop w = none) →
      alookup (applySectionsOver w L) k = none := by
  intro L
  induction L with
  | nil => intro _; rfl
  | cons tr rest ih =>
    intro h
    obtain ⟨k2, lbl2, stop2⟩ := tr
    unfold applySectionsOver
    cases hre : reSearchSection lbl2 stop2 w with
    | none => exact ih (fun lbl stop hm => h lbl stop (List.mem_cons_of_mem _ hm))
    | some v =>
      unfold alookup
      by_cases hk : k2 = k
      · subst hk
        rw [h lbl2 stop2 (List.mem_cons_self _ _)] at hre
        simp at hre
      · simp only [hk, if_false]
        exact ih (fun lbl stop hm => h lbl stop (List.mem_cons_of_mem _ hm))

theorem alookup_applySectionsOver_mem {w : List Char} {k : String}
    {lbl : List Char} {stop : List Char → Bool} :
    ∀ {L : List (String × List Char × (List Char → Bool))},
      (L.map Prod.fst).Nodup → (k, lbl, stop) ∈ L →
      alookup (applySectionsOver w L) k = (reSearchSection lbl stop w).map trim := by
  intro L
  induction L with
  | nil => intro _ hm; simp at hm
  | cons tr rest ih =>
    intro hnd hm
    rcases List.mem_cons.mp hm with hhd | htl
    · subst hhd
      have hnd1 : (k :: rest.map Prod.fst).Nodup := by
        rw [List.map_cons] at hnd; exact hnd
      have hk2 : k ∉ rest.map Prod.fst := (List.nodup_cons.mp hnd1).1
      unfold applySectionsOver
      cases hre : reSearchSection lbl stop w with
      | none =>
        have h2 : alookup (applySectionsOver w rest) k = none := by
          apply alookup_applySectionsOver_none
          intro lbl3 stop3 hm3
          exact absurd (List.mem_map.mpr ⟨(k, lbl3, stop3), hm3, rfl⟩) hk2
        simpa using h2
      | some v =>
        show alookup ((k, trim v) :: applySectionsOver w rest) k
          = Option.map trim (some v)
        unfold alookup
        simp
    · obtain ⟨k2, lbl2, stop2⟩ := tr
      have hnd1 : (k2 :: rest.map Prod.fst).Nodup := by
        rw [List.map_cons] at hnd; exact hnd
      have hnd2 : (rest.map Prod.fst).Nodup := (List.nodup_cons.mp hnd1).2
      have hk2 : k2 ∉ rest.map Prod.fst := (List.nodup_cons.mp hnd1).1
      have hk : k2 ≠ k := by
        intro he
        subst he
        exact hk2 (List.mem_map.mpr ⟨(k2, lbl, stop), htl, rfl⟩)
      unfold applySectionsOver
      cases hre : reSearchSection lbl2 stop2 w with
      | none =>
        show alookup (applySectionsOver w rest) k
          = Option.map trim (reSearchSection lbl stop w)
        exact ih hnd2 htl
      | some v =>
        show alookup ((k2, trim v) :: applySectionsOver w rest) k
          = Option.map trim (reSearchSection lbl stop w)
        unfold alookup
        simp only [hk, if_false]
        exact ih hnd2 htl

theorem map_fst_applySectionsOver {w : List Char} :
    ∀ {L : List (String × List Char × (List Char → Bool))},
      (∀ tr ∈ L, tr.2.2 [] = true) →
      (applySectionsOver w L).map Prod.fst
        = (L.filter (fun tr => containsSub tr.2.1 w)).map Prod.fst := by
  intro L
  induction L with
  | nil => intro _; rfl
  | cons tr rest ih =>
    intro h
    obtain ⟨k2, lbl2, stop2⟩ := tr
    have hstop : stop2 [] = true := h (k2, lbl2, stop2) (List.mem_cons_self _ _)
    have hrest := ih (fun tr hm => h tr (List.mem_cons_of_mem _ hm))
    have hiso := reSearchSection_isSome lbl2 hstop w
    unfold applySectionsOver
    cases hre : reSearchSection lbl2 stop2 w with
    | none =>
      rw [hre] at hiso
      simp only [Option.isSome_none] at hiso
      rw [List.filter_cons]
      simp only [← hiso]
      simpa using hrest
    | some v =>
      rw [hre] at hiso
      simp only [Option.isSome_some] at hiso
      rw [List.filter_cons]
      simp only [← hiso]
      simpa using hrest

theorem mem_keys_applySectionsOver {w : List Char} {k : String} :
    ∀ {L : List (String × List Char × (List Char → Bool))},
      k ∈ (applySectionsOver w L).map Prod.fst → k ∈ L.map Prod.fst := by
  intro L
  induction L with
  | nil => intro h; exact absurd h (by simp [applySectionsOver])
  | cons tr rest ih =>
    intro h
    obtain ⟨k2, lbl2, stop2⟩ := tr
    unfold applySectionsOver at h
    cases hre : reSearchSection lbl2 stop2 w with
    | none =>
      rw [hre] at h
      exact List.mem_cons_of_mem _ (ih h)
    | some v =>
      rw [hre] at h
      simp only [List.map_cons] at h
      rcases List.mem_cons.mp h with hh | ht
      · simp [hh]
      · exact List.mem_cons_of_mem _ (ih ht)

/-! Lemmas about dict overlay. -/

theorem alookup_dictInsert_ne {α : Type} {k q : String} {x : α}
    (hne : k ≠ q) :
    ∀ {L : List (String × α)}, alookup (dictInsert L k x) q = alookup L q := by
  intro L
  induction L with
  | nil => simp [dictInsert, alookup, hne]
  | cons pr rest ih =>
    obtain ⟨k2, y⟩ := pr
    unfold dictInsert
    by_cases hk : k2 = k
    · subst hk
      unfold alookup
      simp [hne]
    · simp only [hk, if_false]
      unfold alookup
      by_cases hq : k2 = q
      · simp [hq]
      · simp only [hq, if_false]
        exact ih

theorem alookup_dictMerge_notin {α : Type} {q : String} :
    ∀ {d base : List (String × α)}, q ∉ d.map Prod.fst →
      alookup (dictMerge base d) q = alookup base q := by
  intro d
  induction d with
  | nil => intro base _; rfl
  | cons pr rest ih =>
    intro base h
    have hq : pr.1 ≠ q := by
      intro he
      exact h (List.mem_map.mpr ⟨pr, List.mem_cons_self _ _, he⟩)
    have hrest : q ∉ rest.map Prod.fst := by
      intro hm
      obtain ⟨x, hx, he⟩ := List.mem_map.mp hm
      exact h (List.mem_map.mpr ⟨x, List.mem_cons_of_mem _ hx, he⟩)
    show alookup (dictMerge (dictInsert base pr.1 pr.2) rest) q = alookup base q
    rw [ih hrest, alookup_dictInsert_ne hq]

/-! Lemmas about `setdefaultAppend` and the TOC grouping fold. -/

theorem mem_keys_setdefaultAppend {x k : List Char} {e : Entry} :
    ∀ {L : List (List Char × List Entry)},
      x ∈ (setdefaultAppend L k e).map Prod.fst → x ∈ L.map Prod.fst ∨ x = k := by
  intro L
  induction L with
  | nil =>
    intro h
    unfold setdefaultAppend at h
    simp at h
    right
    exact h
  | cons pr rest ih =>
    intro h
    obtain ⟨k2, l⟩ := pr
    unfold setdefaultAppend at h
    by_cases hk : k2 = k
    · simp only [hk, if_true] at h
      simp only [List.map_cons] at h
      rcases List.mem_cons.mp h with hh | ht
      · left; simp [hh, hk]
      · left; exact List.mem_cons_of_mem _ ht
    · simp only [hk, if_false] at h
      simp only [List.map_cons] at h
      rcases List.mem_cons.mp h with hh | ht
      · left; simp [hh]
      · rcases ih ht with h2 | h2
        · left; exact List.mem_cons_of_mem _ h2
        · right; exact h2

theorem nodup_keys_setdefaultAppend {k : List Char} {e : Entry} :
    ∀ {L : List (List Char × List Entry)},
      (L.map Prod.fst).Nodup → ((setdefaultAppend L k e).map Prod.fst).Nodup := by
  intro L
  induction L with
  | nil =>
    intro _
    unfold setdefaultAppend
    simp
  | cons pr rest ih =>
    intro hnd
    obtain ⟨k2, l⟩ := pr
    have hnd1 : (k2 :: rest.map Prod.fst).Nodup := by
      rw [List.map_cons] at hnd; exact hnd
    have hk2 : k2 ∉ rest.map Prod.fst := (List.nodup_cons.mp hnd1).1
    have hnd2 : (rest.map Prod.fst).Nodup := (List.nodup_cons.mp hnd1).2
    unfold setdefaultAppend
    by_cases hk : k2 = k
    · subst hk
      simp only [eq_self_iff_true, if_true]
      simpa using hnd1
    · simp only [hk, if_false]
      simp only [List.map_cons]
      rw [List.nodup_cons]
      constructor
      · intro hm
        rcases mem_keys_setdefaultAppend hm with h2 | h2
        · exact hk2 h2
        · exact hk h2
      · exact ih hnd2


theorem tocInv_setdefaultAppend (k : List Char) (e : Entry)
    (he : categoryOf e.id = k) :
    ∀ {L : List (List Char × List Entry)}, TocInv L →
      TocInv (setdefaultAppend L k e) := by
  intro L
  induction L with
  | nil =>
    intro _
    unfold setdefaultAppend
    intro pr hpr
    simp at hpr
    subst hpr
    refine ⟨by simp, ?_⟩
    intro x hx
    simp at hx
    subst hx
    exact he
  | cons pr0 rest ih =>
    intro hinv
    obtain ⟨k2, l⟩ := pr0
    have hhd := hinv (k2, l) (List.mem_cons_self _ _)
    have htlinv : TocInv rest := fun pr hpr => hinv pr (List.mem_cons_of_mem _ hpr)
    unfold setdefaultAppend
    by_cases hk : k2 = k
    · subst hk
      simp only [eq_self_iff_true, if_true]
      intro pr hpr
      rcases List.mem_cons.mp hpr with hh | ht
      · subst hh
        refine ⟨by simp, ?_⟩
        intro x hx
        rcases List.mem_append.mp hx with h2 | h2
        · simpa using hhd.2 x h2
        · simp at h2
          subst h2
          simpa using he
      · exact htlinv pr ht
    · simp only [hk, if_false]
      intro pr hpr
      rcases List.mem_cons.mp hpr with hh | ht
      · subst hh
        exact hhd
      · exact ih htlinv pr ht

theorem foldl_preserve {α β : Type} {f : α → β → α} (P : α → Prop)
    (hstep : ∀ a b, P a → P (f a b)) :
    ∀ (l : List β) (a : α), P a → P (l.foldl f a) := by
  intro l
  induction l with
  | nil => intro a h; exact h
  | cons b l ih =>
    intro a h
    exact ih (f a b) (hstep a b h)

theorem parseTOC_nodup_keys (text : List Char) :
    ((parseTableOfContents text).map Prod.fst).Nodup := by
  unfold parseTableOfContents
  cases tocRegion text with
  | none => simp
  | some region =>
    exact foldl_preserve
      (fun (L : List (List Char × List Entry)) => (L.map Prod.fst).Nodup)
      (fun a b h => nodup_keys_setdefaultAppend h) _ _ (by simp)

theorem parseTOC_tocInv (text : List Char) :
    TocInv (parseTableOfContents text) := by
  unfold parseTableOfContents
  cases tocRegion text with
  | none => intro pr hpr; simp at hpr
  | some region =>
    apply foldl_preserve TocInv
    · intro a b h
      exact tocInv_setdefaultAppend (categoryOf (trim b.1))
        ⟨trim b.1, trim b.2⟩ rfl h
    · intro pr hpr
      exact absurd hpr (List.not_mem_nil pr)

theorem alookup_of_get {α : Type} :
    ∀ {L : List (List Char × α)} {j : Nat} {pr : List Char × α},
      (L.map Prod.fst).Nodup → L[j]? = some pr → alookup L pr.1 = some pr.2 := by
  intro L
  induction L with
  | nil => intro j pr _ h; simp at h
  | cons x rest ih =>
    intro j pr hnd hg
    have hnd1 : (x.1 :: rest.map Prod.fst).Nodup := by
      rw [List.map_cons] at hnd; exact hnd
    cases j with
    | zero =>
      simp at hg
      subst hg
      obtain ⟨k2, v2⟩ := x
      unfold alookup
      simp
    | succ j =>
      simp only [List.getElem?_cons_succ] at hg
      have hmem : pr ∈ rest := List.getElem?_mem hg
      have hx : x.1 ∉ rest.map Prod.fst := (List.nodup_cons.mp hnd1).1
      have hne : x.1 ≠ pr.1 := by
        intro he
        exact hx (he ▸ List.mem_map.mpr ⟨pr, hmem, rfl⟩)
      obtain ⟨k2, v2⟩ := x
      unfold alookup
      simp only [hne, if_false]
      exact ih (List.nodup_cons.mp hnd1).2 hg

/-! Helper lemmas about `enumFrom`, `flatMap` and `map`. -/

theorem map_flatMap_eq {α β γ : Type} (g : β → γ) (f : α → List β) :
    ∀ l : List α, (l.flatMap f).map g = l.flatMap (fun a => (f a).map g) := by
  intro l
  induction l with
  | nil => rfl
  | cons x t ih => simp [ih]

theorem flatMap_congr_mem {α β : Type} {f g : α → List β} :
    ∀ {l : List α}, (∀ a ∈ l, f a = g a) → l.flatMap f = l.flatMap g := by
  intro l
  induction l with
  | nil => intro _; rfl
  | cons x t ih =>
    intro h
    simp only [List.flatMap_cons]
    rw [h x (List.mem_cons_self _ _), ih (fun a ha => h a (List.mem_cons_of_mem _ ha))]

theorem enumFrom_map_snd_comp {α β : Type} (g : α → β) :
    ∀ (l : List α) (n : Nat),
      (List.enumFrom n l).map (fun q => g q.2) = l.map g := by
  intro l
  induction l with
  | nil => intro n; rfl
  | cons x t ih =>
    intro n
    simp only [List.enumFrom, List.map_cons]
    rw [ih]

theorem enumFrom_flatMap_snd_comp {α β : Type} (g : α → List β) :
    ∀ (l : List α) (n : Nat),
      (List.enumFrom n l).flatMap (fun q => g q.2) = l.flatMap g := by
  intro l
  induction l with
  | nil => intro n; rfl
  | cons x t ih =>
    intro n
    simp only [List.enumFrom, List.flatMap_cons]
    rw [ih]

/-! Lemmas for the missing-anchor analysis. -/

theorem anyPos_eq_false_of {p : List Char → Bool} {t : List Char}
    (h : ∀ sfx, sfx <:+ t → p sfx = false) : anyPos p t = false := by
  cases hap : anyPos p t with
  | false => rfl
  | true =>
    obtain ⟨sfx, hs, hp⟩ := anyPos_eq_true_iff.mp hap
    rw [h sfx hs] at hp
    exact absurd hp (by simp)

theorem containsSub_of_nlWs {lit sfx : List Char} (h : nlWs lit sfx = true) :
    containsSub lit sfx = true := by
  unfold nlWs at h
  cases sfx with
  | nil => simp at h
  | cons c r =>
    have hpre : lit.isPrefixOf (r.dropWhile isSpace) = true := by
      simp only [Bool.and_eq_true] at h
      exact h.2
    have hc : containsSub lit (r.dropWhile isSpace) = true := by
      obtain ⟨rest, hrest⟩ := isPrefixOf_eq_true_iff.mp hpre
      exact containsSub_eq_true_iff.mpr ⟨[], rest, by simpa using hrest⟩
    exact containsSub_of_suffix
      ((dropWhile_isSuffix r).trans (List.suffix_cons c r)) hc

theorem nlWs_eq_false_of_not_contains {lit post : List Char}
    (h : containsSub lit post = false) :
    ∀ sfx, sfx <:+ post → nlWs lit sfx = false := by
  intro sfx hs
  cases hn : nlWs lit sfx with
  | false => rfl
  | true =>
    have := containsSub_of_suffix hs (containsSub_of_nlWs hn)
    rw [h] at this
    exact absurd this (by simp)

theorem tocRegion_eq_none {text : List Char}
    (h : containsSub (cl "Table of Contents") text = false
      ∨ ∀ pr, splitFirst (cl "Table of Contents") text = some pr →
          containsSub (cl "Appendix") pr.2 = false) :
    tocRegion text = none := by
  unfold tocRegion
  cases hsf : splitFirst (cl "Table of Contents") text with
  | none => rfl
  | some pr =>
    have hApp : containsSub (cl "Appendix") pr.2 = false := by
      rcases h with h | h
      · have h2 := splitFirst_isSome (cl "Table of Contents") text
        rw [hsf, h] at h2
        simp at h2
      · exact h pr hsf
    have hfalse : ∀ sfx, sfx <:+ pr.2 → nlAppendix sfx = false := by
      intro sfx hs
      exact nlWs_eq_false_of_not_contains hApp sfx hs
    have hlc : lazyCapture nlAppendix (pr.2.dropWhile isSpace) = none := by
      have hiso := lazyCapture_isSome_eq_anyPos nlAppendix
        (pr.2.dropWhile isSpace)
      have hap : anyPos nlAppendix (pr.2.dropWhile isSpace) = false := by
        apply anyPos_eq_false_of
        intro sfx hs
        exact hfalse sfx (hs.trans (dropWhile_isSuffix pr.2))
      rw [hap] at hiso
      exact Option.not_isSome_iff_eq_none.mp (by simp [hiso])
    have hap2 : anyPos nlAppendix pr.2 = false := anyPos_eq_false_of hfalse
    show (match lazyCapture nlAppendix (pr.2.dropWhile isSpace) with
      | some g => some g
      | none => if anyPos nlAppendix pr.2 = true then some [] else none) = none
    rw [hlc, hap2]
    simp

/-! Character-class facts used by the TOC entry matcher proofs. -/

theorem digit_not_space {c : Char} (h : isDigit c = true) : isSpace c = false := by
  unfold isDigit at h
  simp only [Bool.or_eq_true, beq_iff_eq] at h
  rcases h with (((((((((h | h) | h) | h) | h) | h) | h) | h) | h) | h) <;>
    subst h <;> decide

theorem space_not_digit {c : Char} (h : isSpace c = true) : isDigit c = false := by
  unfold isSpace at h
  simp only [Bool.or_eq_true, beq_iff_eq] at h
  rcases h with (((((h | h) | h) | h) | h) | h) <;> subst h <;> decide

theorem space_ne_dot {c : Char} (h : isSpace c = true) : c ≠ '.' := by
  intro he
  subst he
  exact absurd h (by decide)

theorem digit_ne_dot {c : Char} (h : isDigit c = true) : c ≠ '.' := by
  intro he
  subst he
  exact absurd h (by decide)

theorem dot_not_digit : isDigit '.' = false := by decide

theorem dot_not_space : isSpace '.' = false := by decide

/-! The deterministic parse of the dotted-component groups. -/

theorem parseDotComps_exact :
    ∀ (gs : List (List Char)) (k : Nat) (tail : List Char),
      gs.length ≤ k →
      (∀ g ∈ gs, g ≠ [] ∧ g.all isDigit = true) →
      (∀ c, tail.head? = some c → isSpace c = true) →
      tail ≠ [] →
      parseDotComps k ((gs.map (fun g => '.' :: g)).flatten ++ tail)
        = ((gs.map (fun g => '.' :: g)).flatten, tail) := by
  intro gs
  induction gs with
  | nil =>
    intro k tail _ _ htlh htl
    simp only [List.map_nil, List.flatten_nil, List.nil_append]
    cases k with
    | zero => rfl
    | succ k2 =>
      cases tail with
      | nil => exact absurd rfl htl
      | cons c t2 =>
        have hcw : isSpace c = true := htlh c rfl
        unfold parseDotComps
        simp [space_ne_dot hcw]
  | cons g gs2 ih =>
    intro k tail hk hg htlh htl
    cases k with
    | zero => simp at hk
    | succ k2 =>
      have hg1 : g ≠ [] ∧ g.all isDigit = true := hg g (List.mem_cons_self _ _)
      have hgd : ∀ c ∈ g, isDigit c = true := List.all_eq_true.mp hg1.2
      have hflat : ((g :: gs2).map (fun g => '.' :: g)).flatten
          = '.' :: (g ++ ((gs2.map (fun g => '.' :: g)).flatten)) := by
        simp
      rw [hflat]
      have hheadrest : ∀ c,
          (((gs2.map (fun g => '.' :: g)).flatten ++ tail)).head? = some c →
          isDigit c = false := by
        intro c hc
        cases gs2 with
        | nil =>
          simp only [List.map_nil, List.flatten_nil, List.nil_append] at hc
          exact space_not_digit (htlh c hc)
        | cons g2 gs3 =>
          have : ((g2 :: gs3).map (fun g => '.' :: g)).flatten
              = '.' :: (g2 ++ ((gs3.map (fun g => '.' :: g)).flatten)) := by
            simp
          rw [this] at hc
          simp only [List.cons_append, List.head?_cons, Option.some_inj] at hc
          subst hc
          exact dot_not_digit
      have htk : (g ++ (((gs2.map (fun g => '.' :: g)).flatten ++ tail))).takeWhile isDigit
          = g := by
        rw [takeWhile_append_all hgd]
        cases hr : ((gs2.map (fun g => '.' :: g)).flatten ++ tail) with
        | nil => simp
        | cons c t2 =>
          have hcd : isDigit c = false := by
            apply hheadrest
            rw [hr]
            rfl
          rw [takeWhile_cons_neg hcd]
          simp
      have hdr : (g ++ (((gs2.map (fun g => '.' :: g)).flatten ++ tail))).dropWhile isDigit
          = ((gs2.map (fun g => '.' :: g)).flatten ++ tail) := by
        rw [dropWhile_append_all hgd]
        cases hr : ((gs2.map (fun g => '.' :: g)).flatten ++ tail) with
        | nil => rfl
        | cons c t2 =>
          have hcd : isDigit c = false := by
            apply hheadrest
            rw [hr]
            rfl
          rw [dropWhile_cons_neg hcd]
      have hge : g.isEmpty = false := by
        cases g with
        | nil => exact absurd rfl hg1.1
        | cons x xs => rfl
      have hrec := ih k2 tail (by simpa using hk)
        (fun g2 hg2 => hg g2 (List.mem_cons_of_mem _ hg2)) htlh htl
      unfold parseDotComps
      simp only [List.cons_append, List.append_assoc]
      rw [htk, hdr, hrec]
      simp [hge]

/-- Lazy title capture: a dot-free title followed by a period is captured
exactly. -/
theorem lazyCapture_dot {title : List Char} (r : List Char)
    (h : title.all (fun c => c != '.') = true) :
    lazyCapture (fun sfx => sfx.headD ' ' == '.') (title ++ '.' :: r)
      = some title := by
  induction title with
  | nil =>
    unfold lazyCapture
    simp
  | cons c t ih =>
    have hc : (c != '.') = true := (List.all_eq_true.mp h) c (List.mem_cons_self _ _)
    have ht : t.all (fun c => c != '.') = true :=
      List.all_eq_true.mpr (fun x hx =>
        (List.all_eq_true.mp h) x (List.mem_cons_of_mem _ hx))
    have hstop : ((c :: (t ++ '.' :: r)).headD ' ' == '.') = false := by
      simp only [List.headD_cons]
      simpa using hc
    unfold lazyCapture
    simp only [List.cons_append, hstop, Bool.false_eq_true, if_false]
    rw [ih ht]
    simp

/-- Recognition of one well-shaped TOC line by the entry matcher: a
dotted numeric identifier of 2 to 4 components, then whitespace, then a
dot-free title terminated by a period, is matched exactly when the
scanner attempts a match at the start of that line. -/
theorem tocTryMatch_line (ds : List Char) (gs : List (List Char))
    (sp title rest : List Char)
    (hds : ds ≠ []) (hdsd : ds.all isDigit = true)
    (hgs : gs ≠ []) (hgl : gs.length ≤ 3)
    (hg : ∀ g ∈ gs, g ≠ [] ∧ g.all isDigit = true)
    (hsp : sp ≠ []) (hspw : sp.all isSpace = true)
    (ht : title.all (fun c => c != '.') = true)
    (hth : ∀ c, title.head? = some c → isSpace c = false) :
    tocTryMatch (ds ++ ((gs.map (fun g => '.' :: g)).flatten
        ++ (sp ++ (title ++ '.' :: rest))))
      = some (ds ++ (gs.map (fun g => '.' :: g)).flatten, title,
          title.getLastD (sp.getLastD ' '), '.' :: rest) := by
  have hdsall : ∀ c ∈ ds, isDigit c = true := List.all_eq_true.mp hdsd
  have hspall : ∀ c ∈ sp, isSpace c = true := List.all_eq_true.mp hspw
  obtain ⟨g1, gs2, rfl⟩ := List.exists_cons_of_ne_nil hgs
  have hflat : ((g1 :: gs2).map (fun g => '.' :: g)).flatten
      = '.' :: (g1 ++ ((gs2.map (fun g => '.' :: g)).flatten)) := by
    simp
  obtain ⟨d0, ds0, rfl⟩ := List.exists_cons_of_ne_nil hds
  have hd0 : isDigit d0 = true := hdsall d0 (List.mem_cons_self _ _)
  -- Step 1: no leading whitespace is skipped.
  have e1 : ((d0 :: ds0) ++ (((g1 :: gs2).map (fun g => '.' :: g)).flatten
      ++ (sp ++ (title ++ '.' :: rest)))).dropWhile isSpace
      = (d0 :: ds0) ++ (((g1 :: gs2).map (fun g => '.' :: g)).flatten
      ++ (sp ++ (title ++ '.' :: rest))) := by
    simp only [List.cons_append]
    exact dropWhile_cons_neg (digit_not_space hd0)
  -- Step 2: the leading digit run is exactly the first component.
  have e2 : ((d0 :: ds0) ++ (((g1 :: gs2).map (fun g => '.' :: g)).flatten
      ++ (sp ++ (title ++ '.' :: rest)))).takeWhile isDigit = d0 :: ds0 := by
    rw [takeWhile_append_all hdsall, hflat]
    simp only [List.cons_append]
    rw [takeWhile_cons_neg dot_not_digit]
    simp
  have e3 : ((d0 :: ds0) ++ (((g1 :: gs2).map (fun g => '.' :: g)).flatten
      ++ (sp ++ (title ++ '.' :: rest)))).dropWhile isDigit
      = ((g1 :: gs2).map (fun g => '.' :: g)).flatten
        ++ (sp ++ (title ++ '.' :: rest)) := by
    rw [dropWhile_append_all hdsall, hflat]
    simp only [List.cons_append]
    rw [dropWhile_cons_neg dot_not_digit]
  -- Step 3: the dotted groups parse exactly, leaving the whitespace run.
  have hsphd : ∀ c, (sp ++ (title ++ '.' :: rest)).head? = some c →
      isSpace c = true := by
    intro c hc
    obtain ⟨s0, sp0, rfl⟩ := List.exists_cons_of_ne_nil hsp
    simp only [List.cons_append, List.head?_cons, Option.some_inj] at hc
    cases hc
    exact hspall _ (List.mem_cons_self _ _)
  have hspne : sp ++ (title ++ '.' :: rest) ≠ [] := by
    obtain ⟨s0, sp0, rfl⟩ := List.exists_cons_of_ne_nil hsp
    simp
  have e5 := parseDotComps_exact (g1 :: gs2) 3 (sp ++ (title ++ '.' :: rest))
    hgl hg hsphd hspne
  have e6 : (((g1 :: gs2).map (fun g => '.' :: g)).flatten).isEmpty = false := by
    rw [hflat]
    rfl
  -- Step 4: the whitespace-plus run is exactly sp.
  have e7 : (sp ++ (title ++ '.' :: rest)).takeWhile isSpace = sp := by
    rw [takeWhile_append_all hspall]
    cases title with
    | nil =>
      simp only [List.nil_append]
      rw [takeWhile_cons_neg dot_not_space]
      simp
    | cons c0 t0 =>
      have hc0 : isSpace c0 = false := hth c0 rfl
      simp only [List.cons_append]
      rw [takeWhile_cons_neg hc0]
      simp
  have e8 : sp.isEmpty = false := by
    obtain ⟨s0, sp0, rfl⟩ := List.exists_cons_of_ne_nil hsp
    rfl
  have e9 : (sp ++ (title ++ '.' :: rest)).dropWhile isSpace
      = title ++ '.' :: rest := by
    rw [dropWhile_append_all hspall]
    cases title with
    | nil =>
      simp only [List.nil_append]
      exact dropWhile_cons_neg dot_not_space
    | cons c0 t0 =>
      have hc0 : isSpace c0 = false := hth c0 rfl
      simp only [List.cons_append]
      exact dropWhile_cons_neg hc0
  -- Step 5: the lazy title capture and the resumption point.
  have e10 := lazyCapture_dot rest ht
  have e11 : (title ++ '.' :: rest).drop title.length = '.' :: rest :=
    List.drop_left title ('.' :: rest)
  have e4 : (d0 :: ds0).isEmpty = false := rfl
  unfold tocTryMatch
  simp only [e1, e2, e3, e4, e5, e6, e7, e8, e9, e10, e11,
    Bool.false_eq_true, if_false]

/-! Record projection lemmas for the round-trip property. -/


theorem extractCisDetails_keys {cisId fullText : List Char}
    {nextId : Option (List Char)} :
    ∀ q ∈ (extractCisDetails cisId fullText nextId).map Prod.fst,
      q ∈ DEFAULT_SECTIONS.map Prod.fst := by
  intro q hq
  unfold extractCisDetails at hq
  cases har : appendixRegion fullText with
  | none =>
    rw [har] at hq
    simp at hq
  | some appendix =>
    rw [har] at hq
    have hq2 : q ∈ (List.map Prod.fst
        (match windowOf cisId nextId appendix with
         | none => []
         | some w => applySections w)) := hq
    cases hw : windowOf cisId nextId appendix with
    | none =>
      rw [hw] at hq2
      simp at hq2
    | some w =>
      rw [hw] at hq2
      have hq3 : q ∈ (applySectionsOver w DEFAULT_SECTIONS).map Prod.fst := hq2
      exact mem_keys_applySectionsOver hq3

theorem entryProj_merge {e : Entry} {d : List (String × List Char)}
    (hsub : ∀ q ∈ d.map Prod.fst, q ∈ DEFAULT_SECTIONS.map Prod.fst) :
    entryProj (dictMerge (controlPairs e) d) = (some e.id, some e.title) := by
  have hid : "id" ∉ d.map Prod.fst := by
    intro h
    have h2 := hsub _ h
    revert h2
    decide
  have htitle : "title" ∉ d.map Prod.fst := by
    intro h
    have h2 := hsub _ h
    revert h2
    decide
  unfold entryProj
  rw [alookup_dictMerge_notin hid, alookup_dictMerge_notin htitle]
  simp [controlPairs, alookup]

theorem map_entryProj_expand (toc : List (List Char × List Entry))
    (text : List Char) :
    (expandRecords toc text).map entryProj
      = toc.flatMap (fun pr => pr.2.map (fun e => (some e.id, some e.title))) := by
  unfold expandRecords
  rw [map_flatMap_eq]
  have hpoint : ∀ p ∈ toc.enum,
      ((p.2.2.enum.map (fun q => dictMerge (controlPairs q.2)
          (extractCisDetails q.2.id text (nextControlId toc p.1 q.1)))).map
        entryProj)
      = p.2.2.map (fun e => ((some e.id, some e.title) :
          Option (List Char) × Option (List Char))) := by
    intro p hp
    rw [List.map_map]
    simp only [Function.comp_def]
    have hcong2 : ∀ q ∈ p.2.2.enum,
        entryProj (dictMerge (controlPairs q.2)
          (extractCisDetails q.2.id text (nextControlId toc p.1 q.1)))
        = ((some q.2.id, some q.2.title) :
            Option (List Char) × Option (List Char)) :=
      fun q hq => entryProj_merge (fun k hk => extractCisDetails_keys k hk)
    rw [List.map_congr_left hcong2]
    exact enumFrom_map_snd_comp
      (fun e => ((some e.id, some e.title) :
        Option (List Char) × Option (List Char))) p.2.2 0
  rw [flatMap_congr_mem hpoint]
  exact enumFrom_flatMap_snd_comp
    (fun pr => pr.2.map (fun e => (some e.id, some e.title))) toc 0

/-- Distinct keys force equal payloads in an association list. -/
theorem keys_nodup_unique {β : Type} {k : String} {a b : β} :
    ∀ {L : List (String × β)}, (L.map Prod.fst).Nodup →
      (k, a) ∈ L → (k, b) ∈ L → a = b := by
  intro L
  induction L with
  | nil => intro _ ha; simp at ha
  | cons x rest ih =>
    intro hnd ha hb
    have hnd1 : (x.1 :: rest.map Prod.fst).Nodup := by
      rw [List.map_cons] at hnd; exact hnd
    have hx : x.1 ∉ rest.map Prod.fst := (List.nodup_cons.mp hnd1).1
    rcases List.mem_cons.mp ha with hha | hta
    · rcases List.mem_cons.mp hb with hhb | htb
      · exact congrArg Prod.snd (hha.trans hhb.symm)
      · exfalso
        apply hx
        rw [← hha]
        exact List.mem_map.mpr ⟨(k, b), htb, rfl⟩
    · rcases List.mem_cons.mp hb with hhb | htb
      · exfalso
        apply hx
        rw [← hhb]
        exact List.mem_map.mpr ⟨(k, a), hta, rfl⟩
      · exact ih (List.nodup_cons.mp hnd1).2 hta htb

/-! ## Claim theorems -/

/-- C1: for every table of contents produced by the TOC parser, the
driver computes the next control ID exactly as the specified rule: the
following control in the same category when the control is not last in
its category; otherwise the first control of the next category in
insertion order when one follows, with an empty next category yielding
no next ID; and no next ID for the last control of the last category.
The driver expansion (`expandRecords`) invokes `nextControlId`, whose
dictionary lookup of the next category key agrees with the positional
rule because parser-produced category keys are distinct. -/
theorem C1_next_id_rule (text : List Char) (si i : Nat) :
    nextControlId (parseTableOfContents text) si i
      = nextIdSpec (parseTableOfContents text) si i := by
  have hnd := parseTOC_nodup_keys text
  unfold nextControlId nextIdSpec
  cases hsi : (parseTableOfContents text)[si]? with
  | none => rfl
  | some pr =>
    cases hi : pr.2[i + 1]? with
    | some c => simp [hi]
    | none =>
      cases hsi1 : (parseTableOfContents text)[si + 1]? with
      | none => simp [hi, hsi1]
      | some pr2 => simp [hi, hsi1, alookup_of_get hnd hsi1]

/-- C2 counterexample: with the next ID present in the text but not
preceded by a newline, the implemented window runs to the end of the
appendix region, while the claimed window stops before the bare literal
occurrence of the next ID.  The two windows differ on this input. -/
theorem C2_counterexample :
    windowOf (cl "1.1") (some (cl "1.2")) (cl "1.1 alpha 1.2 beta")
      = some (cl "1.1 alpha 1.2 beta")
    ∧ windowClaim (cl "1.1") (some (cl "1.2")) (cl "1.1 alpha 1.2 beta")
      = some (cl "1.1 alpha ")
    ∧ (some (cl "1.1 alpha 1.2 beta") : Option (List Char))
        ≠ some (cl "1.1 alpha ") := by
  decide

/-- C2 amended: the window isolated by extract_cis_details runs from the
first literal occurrence of the control ID up to (but not including) the
first subsequent occurrence of a newline immediately followed by the
literal next control ID; when there is no next ID (and likewise when no
such newline-delimited occurrence exists) it runs to the end of the
appendix region.  Both IDs enter the pattern escaped, which the model
reflects by treating them as literal character lists. -/
theorem C2_window_rule (cisId nid appendix : List Char)
    (pr : List Char × List Char)
    (h : splitFirst cisId appendix = some pr) :
    windowOf cisId (some nid) appendix
      = some (cisId ++ takeUntilSub ('\n' :: nid) pr.2)
    ∧ windowOf cisId none appendix = some (cisId ++ pr.2) :=
  ⟨windowOf_some_next h, windowOf_none_next h⟩

/-- Witness for C2_window_rule at a concrete split. -/
theorem C2_window_rule_witness :
    windowOf (cl "1.1") (some (cl "1.2")) (cl "1.1 a\n1.2 b")
      = some ((cl "1.1") ++ takeUntilSub ('\n' :: (cl "1.2")) (cl " a\n1.2 b"))
    ∧ windowOf (cl "1.1") none (cl "1.1 a\n1.2 b")
      = some ((cl "1.1") ++ (cl " a\n1.2 b")) :=
  C2_window_rule (cl "1.1") (cl "1.2") (cl "1.1 a\n1.2 b")
    ([], cl " a\n1.2 b") (by decide)

/-- C3 counterexample: the remediation pattern terminates only at a
Default Value label or end of text, so on a window with a references
section and no default-value section the remediation value runs across
the known References label, while the claimed value (capture up to the
next known label) stops before it. -/
theorem C3_counterexample :
    alookup (extractCisDetails (cl "2.1") c3ex none) "remediation"
      = some (cl "fix\nReferences:\nurl")
    ∧ sectionValueClaim (cl "Remediation:") c3win = some (cl "fix")
    ∧ (some (cl "fix\nReferences:\nurl") : Option (List Char))
        ≠ some (cl "fix") := by
  decide

/-- C3 amended: the eight patterns are applied in fixed order, a key
appears in the result iff its label occurs in the window, and its value
is the non-greedy capture after the label and following whitespace up to
the first position matched by that pattern's own terminator lookahead
(its listed label alternatives, the first anchored at a line start, or
end of text), trimmed. -/
theorem C3_section_rule (w : List Char) (k : String) (lbl : List Char)
    (stop : List Char → Bool) (hm : (k, lbl, stop) ∈ DEFAULT_SECTIONS) :
    ((applySections w).map Prod.fst
       = (DEFAULT_SECTIONS.filter (fun tr => containsSub tr.2.1 w)).map Prod.fst)
    ∧ alookup (applySections w) k = (reSearchSection lbl stop w).map trim
    ∧ (reSearchSection lbl stop w).isSome = containsSub lbl w := by
  have hall : ∀ tr ∈ DEFAULT_SECTIONS, tr.2.2 [] = true := by
    intro tr htr
    have h8 : DEFAULT_SECTIONS.all (fun tr => tr.2.2 []) = true := by rfl
    exact List.all_eq_true.mp h8 tr htr
  have hnd : (DEFAULT_SECTIONS.map Prod.fst).Nodup := by decide
  exact ⟨map_fst_applySectionsOver hall,
    alookup_applySectionsOver_mem hnd hm,
    reSearchSection_isSome lbl (hall _ hm) w⟩

/-- Witness for C3_section_rule at the rationale pattern on a concrete
window. -/
theorem C3_section_rule_witness :
    ((applySections (cl "Rationale: r")).map Prod.fst
       = (DEFAULT_SECTIONS.filter
            (fun tr => containsSub tr.2.1 (cl "Rationale: r"))).map Prod.fst)
    ∧ alookup (applySections (cl "Rationale: r")) "rationale"
       = (reSearchSection (cl "Rationale:") stopRationale
            (cl "Rationale: r")).map trim
    ∧ (reSearchSection (cl "Rationale:") stopRationale
        (cl "Rationale: r")).isSome
       = containsSub (cl "Rationale:") (cl "Rationale: r") :=
  C3_section_rule (cl "Rationale: r") "rationale" (cl "Rationale:")
    stopRationale
    (List.mem_cons_of_mem _ (List.mem_cons_of_mem _ (List.mem_cons_self _ _)))

/-- C4: every ControlEntry from the TOC appears exactly once in the
output array, with id and title unchanged (detail keys are always among
the eight section names, so they never shadow id or title), and the
array order is category insertion order, then control order within each
category. -/
theorem C4_round_trip (text : List Char)
    (recs : List (List (String × List Char)))
    (h : pipelineRecords text = some recs) :
    recs.map entryProj
      = (parseTableOfContents text).flatMap
          (fun pr => pr.2.map (fun e => (some e.id, some e.title))) := by
  unfold pipelineRecords at h
  cases htoc : parseTableOfContents text with
  | nil =>
    rw [htoc] at h
    simp at h
  | cons x rest =>
    rw [htoc] at h
    have h2 : some (expandRecords (x :: rest) text) = some recs := h
    have h3 : expandRecords (x :: rest) text = recs := Option.some_inj.mp h2
    rw [← h3]
    exact map_entryProj_expand (x :: rest) text

/-- Witness for C4_round_trip at the worked TOC example document. -/
theorem C4_round_trip_witness :
    ([[("id", cl "1.1"), ("title", cl "Control One")],
      [("id", cl "1.2"), ("title", cl "Control Two")]].map entryProj
      = (parseTableOfContents c6ex).flatMap
          (fun pr => pr.2.map (fun e => (some e.id, some e.title)))) :=
  C4_round_trip c6ex
    [[("id", cl "1.1"), ("title", cl "Control One")],
     [("id", cl "1.2"), ("title", cl "Control Two")]] (by decide)

/-- C5: the worked detail-extraction example: control 1.1 with next ID
1.2 yields exactly profile, description and rationale. -/
theorem C5_worked_example :
    extractCisDetails (cl "1.1") c5ex (some (cl "1.2"))
      = [("profile", cl "Level 1"), ("description", cl "Do X"),
         ("rationale", cl "Because Y")] := by
  decide

/-- C6 counterexample: in `c6cx` the line starting 1.2 is well shaped
(dotted ID, whitespace, title, period), and the matcher recognises it in
isolation, yet the parse output contains no 1.2 entry: the previous line
has no period, so the 1.1 title capture runs across the line break and
the scan resumes past the start of the 1.2 line. -/
theorem C6_counterexample :
    parseTableOfContents c6cx = [(cl "1", [⟨cl "1.1", cl "abc\n1"⟩])]
    ∧ tocTryMatch (cl "1.2 def.12")
        = some (cl "1.2", cl "def", 'f', cl ".12") := by
  decide

/-- C6 amended: the worked example parses to category 1 with the two
expected entries; and in general a line consisting of a dotted numeric
identifier of 2 to 4 components, whitespace, and a dot-free title
terminated by a period is recognised as one ControlEntry whenever the
scanner attempts a match at that line's start (that is, when no earlier
entry's title capture has already consumed it). -/
theorem C6_toc_recognition :
    (parseTableOfContents c6ex
      = [(cl "1", [⟨cl "1.1", cl "Control One"⟩, ⟨cl "1.2", cl "Control Two"⟩])])
    ∧ ∀ ds gs sp title rest, ds ≠ [] → ds.all isDigit = true →
        gs ≠ [] → gs.length ≤ 3 →
        (∀ g ∈ gs, g ≠ [] ∧ g.all isDigit = true) →
        sp ≠ [] → sp.all isSpace = true →
        title.all (fun c => c != '.') = true →
        (∀ c, title.head? = some c → isSpace c = false) →
        tocTryMatch (ds ++ ((gs.map (fun g => '.' :: g)).flatten
            ++ (sp ++ (title ++ '.' :: rest))))
          = some (ds ++ (gs.map (fun g => '.' :: g)).flatten, title,
              title.getLastD (sp.getLastD ' '), '.' :: rest) := by
  refine ⟨by decide, ?_⟩
  intro ds gs sp title rest h1 h2 h3 h4 h5 h6 h7 h8 h9
  exact tocTryMatch_line ds gs sp title rest h1 h2 h3 h4 h5 h6 h7 h8 h9

/-- Witness for C6_toc_recognition at the line 1.2 def.12. -/
theorem C6_toc_recognition_witness :
    tocTryMatch ((cl "1") ++ (([cl "2"].map (fun g => '.' :: g)).flatten
        ++ ((cl " ") ++ ((cl "def") ++ '.' :: (cl "12")))))
      = some ((cl "1") ++ ([cl "2"].map (fun g => '.' :: g)).flatten, cl "def",
          (cl "def").getLastD ((cl " ").getLastD ' '), '.' :: (cl "12")) :=
  C6_toc_recognition.2 (cl "1") [cl "2"] (cl " ") (cl "def") (cl "12")
    (by decide) (by decide) (by decide) (by decide) (by decide) (by decide)
    (by decide) (by decide) (by decide)

/-- C7: when the Table of Contents anchor is absent, or no Appendix
literal follows the first Table of Contents anchor, the TOC parser
returns an empty mapping and the pipeline core produces no output. -/
theorem C7_missing_anchor (text : List Char)
    (h : containsSub (cl "Table of Contents") text = false
      ∨ ∀ pr, splitFirst (cl "Table of Contents") text = some pr →
          containsSub (cl "Appendix") pr.2 = false) :
    parseTableOfContents text = [] ∧ pipelineRecords text = none := by
  have h1 : parseTableOfContents text = [] := by
    unfold parseTableOfContents
    rw [tocRegion_eq_none h]
  refine ⟨h1, ?_⟩
  unfold pipelineRecords
  rw [h1]

/-- Witness for C7_missing_anchor on a document with no anchors. -/
theorem C7_missing_anchor_witness :
    parseTableOfContents (cl "no anchors at all") = []
    ∧ pipelineRecords (cl "no anchors at all") = none :=
  C7_missing_anchor (cl "no anchors at all") (Or.inl (by decide))

/-- C8: detail extraction is total and degrades to empty or partial
results: an absent Appendix literal yields an empty mapping, a control
ID absent from the appendix region yields an empty mapping, and a
section whose label does not occur in the window is simply absent from
the result. -/
theorem C8_error_policy (cisId text : List Char)
    (nextId : Option (List Char)) :
    (containsSub (cl "Appendix") text = false →
      extractCisDetails cisId text nextId = [])
    ∧ (∀ appendix, appendixRegion text = some appendix →
        containsSub cisId appendix = false →
        extractCisDetails cisId text nextId = [])
    ∧ (∀ w k lbl stop, (k, lbl, stop) ∈ DEFAULT_SECTIONS →
        containsSub lbl w = false → alookup (applySections w) k = none) := by
  refine ⟨?_, ?_, ?_⟩
  · intro h
    unfold extractCisDetails appendixRegion
    rw [splitFirst_eq_none_iff.mpr h]
  · intro appendix har hc
    unfold extractCisDetails
    rw [har]
    show (match windowOf cisId nextId appendix with
      | none => []
      | some w => applySections w) = []
    rw [windowOf_eq_none hc nextId]
  · intro w k lbl stop hm hc
    apply alookup_applySectionsOver_none
    intro lbl3 stop3 hm3
    have hnd : (DEFAULT_SECTIONS.map Prod.fst).Nodup := by decide
    have heq : ((lbl, stop) : List Char × (List Char → Bool)) = (lbl3, stop3) :=
      keys_nodup_unique hnd hm hm3
    have hlbl : lbl3 = lbl := (congrArg Prod.fst heq).symm
    subst hlbl
    exact reSearchSection_eq_none hc

/-- Witness for C8_error_policy: a text without the Appendix literal, an
appendix region without the control ID, and a window without the Audit
label. -/
theorem C8_error_policy_witness :
    extractCisDetails (cl "9.9") (cl "no anchor here") none = []
    ∧ extractCisDetails (cl "9.9") (cl "Appendix only text") none = []
    ∧ alookup (applySections (cl "plain window")) "audit" = none :=
  ⟨(C8_error_policy (cl "9.9") (cl "no anchor here") none).1 (by decide),
   (C8_error_policy (cl "9.9") (cl "Appendix only text") none).2.1
     (cl "only text") (by decide) (by decide),
   (C8_error_policy (cl "9.9") (cl "x") none).2.2 (cl "plain window") "audit"
     (cl "Audit:") stopAudit
     (List.mem_cons_of_mem _ (List.mem_cons_of_mem _ (List.mem_cons_of_mem _
       (List.mem_cons_of_mem _ (List.mem_cons_self _ _))))) (by decide)⟩

/-- C9: the pipeline core is a pure function of the extracted document
text, so equal inputs give identical record sequences. -/
theorem C9_deterministic (t1 t2 : List Char) (h : t1 = t2) :
    pipelineRecords t1 = pipelineRecords t2 := by
  rw [h]

/-- Witness for C9_deterministic at a concrete text. -/
theorem C9_deterministic_witness :
    pipelineRecords (cl "x") = pipelineRecords (cl "x") :=
  C9_deterministic (cl "x") (cl "x") rfl

/-- C10: in every parser-produced table of contents, every category maps
to a nonempty entry list whose entries all have that category as the
part of the ID before the first dot; hence the driver branch for an
empty next category can never fire on parser output. -/
theorem C10_parser_invariant (text : List Char) :
    (∀ pr ∈ parseTableOfContents text,
        pr.2 ≠ [] ∧ ∀ e ∈ pr.2, categoryOf e.id = pr.1)
    ∧ (∀ si pr2, (parseTableOfContents text)[si + 1]? = some pr2 →
        pr2.2 ≠ []) := by
  refine ⟨parseTOC_tocInv text, ?_⟩
  intro si pr2 hg
  exact (parseTOC_tocInv text pr2 (List.getElem?_mem hg)).1

/-- Witness for C10_parser_invariant at a one-entry document. -/
theorem C10_parser_invariant_witness :
    ([⟨cl "1.1", cl "A"⟩] : List Entry) ≠ []
    ∧ ∀ e ∈ ([⟨cl "1.1", cl "A"⟩] : List Entry), categoryOf e.id = cl "1" :=
  (C10_parser_invariant (cl "Table of Contents\n1.1 A.\nAppendix")).1
    (cl "1", [⟨cl "1.1", cl "A"⟩]) (by decide)

end CisBench
